import Mathlib

/-!
Shallow embedding of `src/cosmic_recurrence_law.py` (Cosmic Recurrence Law).

Vectors are `List ℝ`, matrices are `List (List ℝ)` (rows).  The numpy
floating-point arithmetic is embedded as exact real arithmetic; the float
literal `1e-15` is the real number `1 / 10 ^ 15`.  The fallible list index
`distances[-1]` is embedded with `List.getLast?`, so the driver returns
`none` exactly where the Python code would raise `IndexError`.
-/

namespace CosmicRecurrence

/-- The clip floor `1e-15` used by `normalize` (`np.clip(v, 1e-15, None)`). -/
noncomputable def clipFloor : ℝ := 1 / 10 ^ 15

/-- One entry of `np.clip(v, 1e-15, None)`: clamp below by the floor. -/
noncomputable def clip (x : ℝ) : ℝ := max x clipFloor

/-- `normalize(v)`: clip every entry to at least `1e-15`, then divide by the
sum of the clipped entries (`v = np.clip(v, 1e-15, None); return v / np.sum(v)`). -/
noncomputable def normalize (v : List ℝ) : List ℝ :=
  let w := v.map clip
  w.map (fun x => x / w.sum)

/-- Matrix–vector product `M @ v` (rows of `M` dotted with `v`). -/
noncomputable def matVecMul (M : List (List ℝ)) (v : List ℝ) : List ℝ :=
  M.map (fun row => (List.zipWith (fun a b => a * b) row v).sum)

/-- `evolve_state(state, transform)`: apply the transform, then normalize. -/
noncomputable def evolve_state (state : List ℝ) (transform : List (List ℝ)) : List ℝ :=
  normalize (matVecMul transform state)

/-- `np.linalg.norm(state - s0)`: the Euclidean distance between two vectors. -/
noncomputable def euclidean_dist (v w : List ℝ) : ℝ :=
  Real.sqrt ((List.zipWith (fun a b => (a - b) ^ 2) v w).sum)

open Classical in
/-- The simulation loop of `recurrence_simulation` (lines 45–60), with the
generated transform `Q` and initial state `s0` as parameters.  The fuel
argument is the number of remaining loop iterations, `t` the 1-based step
index.  Returns `none` where Python raises `IndexError` (empty `distances`
at `distances[-1]`). -/
noncomputable def recLoop (Q : List (List ℝ)) (s0 : List ℝ) (eps : ℝ) :
    Nat → List ℝ → List ℝ → Nat → Option (Option Nat × ℝ × List ℝ)
  | 0, _, distances, _ =>
    match distances.getLast? with
    | some d => some (none, d, distances)
    | none => none
  | rem + 1, state, distances, t =>
    let state2 := evolve_state state Q
    let d := euclidean_dist state2 s0
    let distances2 := distances ++ [d]
    if d < eps then some (some t, d, distances2)
    else recLoop Q s0 eps rem state2 distances2 (t + 1)

/-- `recurrence_simulation(dim, steps, epsilon)` with the two numpy draws
(initial state `s0` and orthonormal transform `Q`) lifted to parameters:
run the loop from `s0` with empty history at step 1. -/
noncomputable def recurrence_simulation (Q : List (List ℝ)) (s0 : List ℝ)
    (steps : Nat) (eps : ℝ) : Option (Option Nat × ℝ × List ℝ) :=
  recLoop Q s0 eps steps s0 [] 1

/-- The state after `n` applications of the stepper to `s0`. -/
noncomputable def stateAt (Q : List (List ℝ)) (s0 : List ℝ) : Nat → List ℝ
  | 0 => s0
  | n + 1 => evolve_state (stateAt Q s0 n) Q

/-- The distance recorded at step `n`: from the `n`-times-stepped state back
to the initial state. -/
noncomputable def distAt (Q : List (List ℝ)) (s0 : List ℝ) (n : Nat) : ℝ :=
  euclidean_dist (stateAt Q s0 n) s0

/-- The distance history after `k` executed steps: `[distAt 1, …, distAt k]`. -/
noncomputable def histTo (Q : List (List ℝ)) (s0 : List ℝ) (k : Nat) : List ℝ :=
  (List.range k).map (fun i => distAt Q s0 (i + 1))

/-! ### Spec-modelled initializer

`np.random.default_rng(42)`, `rng.random`, `rng.standard_normal` and
`np.linalg.qr` are numpy library calls, not code of this repository. -/

/-- Modelled from the spec: the "deterministic pseudo-random source seeded
with a fixed constant" (numpy's `default_rng`, absent from src) is modelled
as a 64-bit linear congruential generator step. -/
def lcg (x : Nat) : Nat := (6364136223846793005 * x + 1442695040888963407) % 2 ^ 64

/-- The `n`-th raw draw of the modelled pseudo-random source. -/
def rngNat (seed : Nat) : Nat → Nat
  | 0 => lcg seed
  | n + 1 => lcg (rngNat seed n)

/-- Modelled from the spec: one uniform draw in `[0,1)` from the seeded
deterministic source. -/
noncomputable def uniformDraw (seed n : Nat) : ℝ := (rngNat seed n : ℝ) / 2 ^ 64

/-- Modelled from the spec: "draw `dim` uniform values in `[0,1)` to form the
initial state, normalize it". -/
noncomputable def initial_state (seed dim : Nat) : List ℝ :=
  normalize ((List.range dim).map (uniformDraw seed))

/-- Dot product of two vectors. -/
noncomputable def dotProd (u v : List ℝ) : ℝ := (List.zipWith (fun a b => a * b) u v).sum

/-- Entrywise difference of two vectors. -/
noncomputable def vecSub (u v : List ℝ) : List ℝ := List.zipWith (fun a b => a - b) u v

/-- Scalar multiple of a vector. -/
noncomputable def scalarMul (c : ℝ) (v : List ℝ) : List ℝ := v.map (fun x => c * x)

/-- One Gram–Schmidt step: remove the components of `r` along the already
orthonormalized rows, then scale to unit Euclidean norm. -/
noncomputable def gramStep (prev : List (List ℝ)) (r : List ℝ) : List ℝ :=
  let o := prev.foldl (fun acc q => vecSub acc (scalarMul (dotProd q acc) q)) r
  scalarMul (1 / Real.sqrt (dotProd o o)) o

/-- Modelled from the spec: "orthonormalize it via QR-type decomposition,
keeping the orthonormal factor" (`np.linalg.qr`, absent from src; the spec
leaves the sign/ordering convention implementation-defined), modelled as
Gram–Schmidt over the rows. -/
noncomputable def orthonormalize (rows : List (List ℝ)) : List (List ℝ) :=
  rows.foldl (fun acc r => acc ++ [gramStep acc r]) []

/-- Modelled from the spec: the raw `dim × dim` random matrix, drawn from the
same deterministic stream after the `dim` draws used for the initial state
(the spec's standard-normal statistical shape is not modelled; its
determinism is). -/
noncomputable def raw_matrix (seed dim : Nat) : List (List ℝ) :=
  (List.range dim).map (fun i =>
    (List.range dim).map (fun j => uniformDraw seed (dim + i * dim + j)))

/-- Modelled from the spec: the orthonormal transform kept from the
QR-type decomposition of the raw random matrix. -/
noncomputable def transform_matrix (seed dim : Nat) : List (List ℝ) :=
  orthonormalize (raw_matrix seed dim)

/-- The full seeded pipeline of `recurrence_simulation` with its fixed seed
42: generate `s0` and `Q` from the seed, then run the driver loop. -/
noncomputable def recurrence_simulation_seeded (dim steps : Nat) (eps : ℝ) :
    Option (Option Nat × ℝ × List ℝ) :=
  recurrence_simulation (transform_matrix 42 dim) (initial_state 42 dim) steps eps

/-! ### Basic facts about `normalize` -/

lemma clip_pos (x : ℝ) : 0 < clip x := by
  have h : (0 : ℝ) < clipFloor := by norm_num [clipFloor]
  exact lt_max_of_lt_right h

lemma clipFloor_le_clip (x : ℝ) : clipFloor ≤ clip x := le_max_right x clipFloor

lemma sum_map_div (l : List ℝ) (c : ℝ) :
    (l.map (fun x => x / c)).sum = l.sum / c := by
  induction l with
  | nil => simp
  | cons a t ih => simp [ih, add_div]

lemma clip_sum_pos (v : List ℝ) (hv : v ≠ []) : 0 < (v.map clip).sum := by
  refine List.sum_pos _ (fun x hx => ?_) (by simpa using hv)
  rcases List.mem_map.1 hx with ⟨a, _, rfl⟩
  exact clip_pos a

lemma length_normalize (v : List ℝ) : (normalize v).length = v.length := by
  simp [normalize]

lemma normalize_sum (v : List ℝ) (hv : v ≠ []) : (normalize v).sum = 1 := by
  have hpos := clip_sum_pos v hv
  simp only [normalize, sum_map_div]
  exact div_self (ne_of_gt hpos)

lemma normalize_mem_lower (v : List ℝ) (x : ℝ) (hx : x ∈ normalize v) :
    clipFloor / (v.map clip).sum ≤ x := by
  rcases List.mem_map.1 hx with ⟨a, ha, rfl⟩
  rcases List.mem_map.1 ha with ⟨b, _, rfl⟩
  by_cases hv : v = []
  · subst hv; simp at ha
  · exact div_le_div_of_nonneg_right (clipFloor_le_clip b) (clip_sum_pos v hv).le

lemma normalize_mem_pos (v : List ℝ) (x : ℝ) (hx : x ∈ normalize v) : 0 < x := by
  by_cases hv : v = []
  · subst hv; simp [normalize] at hx
  · have h1 := normalize_mem_lower v x hx
    have h2 : 0 < clipFloor / (v.map clip).sum :=
      div_pos (by norm_num [clipFloor]) (clip_sum_pos v hv)
    exact h2.trans_le h1

/-! ### The driver loop -/

lemma histTo_succ (Q : List (List ℝ)) (s0 : List ℝ) (k : Nat) :
    histTo Q s0 (k + 1) = histTo Q s0 k ++ [distAt Q s0 (k + 1)] := by
  simp [histTo, List.range_succ]

lemma histTo_length (Q : List (List ℝ)) (s0 : List ℝ) (k : Nat) :
    (histTo Q s0 k).length = k := by
  simp [histTo]

lemma histTo_getLast (Q : List (List ℝ)) (s0 : List ℝ) (k : Nat) :
    (histTo Q s0 (k + 1)).getLast? = some (distAt Q s0 (k + 1)) := by
  rw [histTo_succ, List.getLast?_append_of_ne_nil _ (by simp), List.getLast?_singleton]

lemma recLoop_exhaust (Q : List (List ℝ)) (s0 : List ℝ) (eps : ℝ) :
    ∀ rem k, 1 ≤ k + rem →
      (∀ j, k < j → j ≤ k + rem → ¬ distAt Q s0 j < eps) →
      recLoop Q s0 eps rem (stateAt Q s0 k) (histTo Q s0 k) (k + 1)
        = some (none, distAt Q s0 (k + rem), histTo Q s0 (k + rem)) := by
  intro rem
  induction rem with
  | zero =>
    intro k hk _
    obtain ⟨m, rfl⟩ : ∃ m, k = m + 1 := ⟨k - 1, by omega⟩
    simp [recLoop, histTo_getLast]
  | succ rem ih =>
    intro k _ hno
    have hs : evolve_state (stateAt Q s0 k) Q = stateAt Q s0 (k + 1) := rfl
    have hd : euclidean_dist (stateAt Q s0 (k + 1)) s0 = distAt Q s0 (k + 1) := rfl
    have hstep : ¬ distAt Q s0 (k + 1) < eps := hno (k + 1) (by omega) (by omega)
    simp only [recLoop]
    rw [hs, hd, ← histTo_succ, if_neg hstep]
    have e : k + 1 + rem = k + (rem + 1) := by omega
    rw [← e]
    exact ih (k + 1) (by omega) (fun j h1 h2 => hno j (by omega) (by omega))

lemma recLoop_hit (Q : List (List ℝ)) (s0 : List ℝ) (eps : ℝ) :
    ∀ rem k T, k < T → T ≤ k + rem → distAt Q s0 T < eps →
      (∀ j, k < j → j < T → ¬ distAt Q s0 j < eps) →
      recLoop Q s0 eps rem (stateAt Q s0 k) (histTo Q s0 k) (k + 1)
        = some (some T, distAt Q s0 T, histTo Q s0 T) := by
  intro rem
  induction rem with
  | zero => intro k T h1 h2 _ _; omega
  | succ rem ih =>
    intro k T h1 h2 hT hmin
    have hs : evolve_state (stateAt Q s0 k) Q = stateAt Q s0 (k + 1) := rfl
    have hd : euclidean_dist (stateAt Q s0 (k + 1)) s0 = distAt Q s0 (k + 1) := rfl
    simp only [recLoop]
    rw [hs, hd, ← histTo_succ]
    by_cases hc : T = k + 1
    · subst hc
      rw [if_pos hT]
    · have hn : ¬ distAt Q s0 (k + 1) < eps := hmin (k + 1) (by omega) (by omega)
      rw [if_neg hn]
      exact ih (k + 1) T (by omega) (by omega) hT (fun j a b => hmin j (by omega) b)

/-- Full-run characterization: for a positive step budget the driver either
returns the least step whose distance is below `eps`, or exhausts the budget. -/
lemma run_cases (Q : List (List ℝ)) (s0 : List ℝ) (steps : Nat) (eps : ℝ)
    (hsteps : 1 ≤ steps) :
    (∃ T, 1 ≤ T ∧ T ≤ steps ∧ distAt Q s0 T < eps ∧
        (∀ j, 1 ≤ j → j < T → ¬ distAt Q s0 j < eps) ∧
        recurrence_simulation Q s0 steps eps
          = some (some T, distAt Q s0 T, histTo Q s0 T))
    ∨ ((∀ j, 1 ≤ j → j ≤ steps → ¬ distAt Q s0 j < eps) ∧
        recurrence_simulation Q s0 steps eps
          = some (none, distAt Q s0 steps, histTo Q s0 steps)) := by
  have hrun : recurrence_simulation Q s0 steps eps
      = recLoop Q s0 eps steps (stateAt Q s0 0) (histTo Q s0 0) (0 + 1) := by
    simp [recurrence_simulation, stateAt, histTo]
  by_cases hex : ∃ j, 1 ≤ j ∧ j ≤ steps ∧ distAt Q s0 j < eps
  · left
    haveI : DecidablePred fun j => 1 ≤ j ∧ j ≤ steps ∧ distAt Q s0 j < eps :=
      fun _ => Classical.propDecidable _
    obtain ⟨hT1, hT2, hT3⟩ := Nat.find_spec hex
    refine ⟨Nat.find hex, hT1, hT2, hT3, ?_, ?_⟩
    · intro j hj1 hjT hjlt
      exact Nat.find_min hex hjT ⟨hj1, by omega, hjlt⟩
    · rw [hrun]
      refine recLoop_hit Q s0 eps steps 0 (Nat.find hex) (by omega) (by omega) hT3 ?_
      intro j hj0 hjT hjlt
      exact Nat.find_min hex hjT ⟨by omega, by omega, hjlt⟩
  · right
    push_neg at hex
    have hno : ∀ j, 1 ≤ j → j ≤ steps → ¬ distAt Q s0 j < eps := fun j h1 h2 =>
      not_lt.2 (hex j h1 h2)
    refine ⟨hno, ?_⟩
    rw [hrun]
    simpa using recLoop_exhaust Q s0 eps steps 0 (by omega)
      (fun j h1 h2 => hno j (by omega) (by simpa using h2))

lemma run_eq_loop (Q : List (List ℝ)) (s0 : List ℝ) (steps : Nat) (eps : ℝ) :
    recurrence_simulation Q s0 steps eps
      = recLoop Q s0 eps steps (stateAt Q s0 0) (histTo Q s0 0) (0 + 1) := by
  simp [recurrence_simulation, stateAt, histTo]

/-! ### Concrete evaluations (dimension 1, identity transform) -/

lemma clip_one : clip (1 : ℝ) = 1 := max_eq_left (by norm_num [clipFloor])

lemma normalize_one : normalize [(1 : ℝ)] = [1] := by
  simp [normalize, clip_one]

lemma matVecMul_one : matVecMul [[(1 : ℝ)]] [1] = [1] := by
  simp [matVecMul]

lemma evolve_one : evolve_state [(1 : ℝ)] [[(1 : ℝ)]] = [1] := by
  rw [evolve_state, matVecMul_one, normalize_one]

lemma dist_one : euclidean_dist [(1 : ℝ)] [(1 : ℝ)] = 0 := by
  simp [euclidean_dist]

lemma stateAt_one (n : Nat) : stateAt [[(1 : ℝ)]] [(1 : ℝ)] n = [1] := by
  induction n with
  | zero => rfl
  | succ n ih => rw [stateAt, ih, evolve_one]

lemma distAt_one (n : Nat) : distAt [[(1 : ℝ)]] [(1 : ℝ)] n = 0 := by
  rw [distAt, stateAt_one, dist_one]

lemma histTo_one : histTo [[(1 : ℝ)]] [(1 : ℝ)] 1 = [0] := by
  simp [histTo, distAt_one]

lemma eval_run_success :
    recurrence_simulation [[(1 : ℝ)]] [(1 : ℝ)] 1 1 = some (some 1, 0, [0]) := by
  simp only [recurrence_simulation, recLoop, evolve_one, dist_one]
  rw [if_pos (by norm_num : (0 : ℝ) < 1)]
  simp

lemma length_matVecMul (M : List (List ℝ)) (v : List ℝ) :
    (matVecMul M v).length = M.length := by
  simp [matVecMul]

/-! ### Claims -/

/-- Claim C1: for every run with `steps ≥ 1`, the driver returns
`(t, d, history)` exactly when the Euclidean distance from the stepped state
to the initial state first falls below `epsilon` at step `t` (with `d` the
distance at that step and the history recording steps `1..t`), and returns
`(None, final distance, full history)` when no step among the first `steps`
steps achieves distance `< epsilon`. -/
theorem recurrence_driver_first_hit (Q : List (List ℝ)) (s0 : List ℝ)
    (steps : Nat) (eps : ℝ) (hsteps : 1 ≤ steps) :
    (∀ T, 1 ≤ T → T ≤ steps → distAt Q s0 T < eps →
        (∀ j, 1 ≤ j → j < T → ¬ distAt Q s0 j < eps) →
        recurrence_simulation Q s0 steps eps
          = some (some T, distAt Q s0 T, histTo Q s0 T)) ∧
    ((∀ j, 1 ≤ j → j ≤ steps → ¬ distAt Q s0 j < eps) →
        recurrence_simulation Q s0 steps eps
          = some (none, distAt Q s0 steps, histTo Q s0 steps)) := by
  constructor
  · intro T h1 h2 h3 h4
    rw [run_eq_loop]
    exact recLoop_hit Q s0 eps steps 0 T (by omega) (by omega) h3
      (fun j a b => h4 j (by omega) b)
  · intro hno
    rw [run_eq_loop]
    simpa using recLoop_exhaust Q s0 eps steps 0 (by omega)
      (fun j a b => hno j (by omega) (by omega))

/-- Witness for C1: with `Q = [[1]]`, `s0 = [1]`, `steps = 1`, `eps = 1`,
the hypothesis `1 ≤ 1` holds and the driver satisfies the first-hit
characterization. -/
theorem recurrence_driver_first_hit_witness :
    1 ≤ 1 ∧
    ((∀ T, 1 ≤ T → T ≤ 1 → distAt [[(1 : ℝ)]] [1] T < 1 →
        (∀ j, 1 ≤ j → j < T → ¬ distAt [[(1 : ℝ)]] [1] j < 1) →
        recurrence_simulation [[(1 : ℝ)]] [1] 1 1
          = some (some T, distAt [[(1 : ℝ)]] [1] T, histTo [[(1 : ℝ)]] [1] T)) ∧
    ((∀ j, 1 ≤ j → j ≤ 1 → ¬ distAt [[(1 : ℝ)]] [1] j < 1) →
        recurrence_simulation [[(1 : ℝ)]] [1] 1 1
          = some (none, distAt [[(1 : ℝ)]] [1] 1, histTo [[(1 : ℝ)]] [1] 1))) :=
  ⟨le_refl 1, recurrence_driver_first_hit [[(1 : ℝ)]] [1] 1 1 (le_refl 1)⟩

/-- Claim C2: every reachable state (the initial normalized state and every
stepper output) has entries bounded below by a positive floor — in
particular all entries are positive — and sums to exactly 1; this holds at
every step of every run with `dim ≥ 1`. -/
theorem reachable_state_invariant (Q : List (List ℝ)) (u : List ℝ)
    (hu : 1 ≤ u.length) (hQ : Q.length = u.length) (n : Nat) :
    (∃ c, 0 < c ∧ ∀ x ∈ stateAt Q (normalize u) n, c ≤ x) ∧
      (stateAt Q (normalize u) n).sum = 1 := by
  have key : ∃ w : List ℝ, w ≠ [] ∧ stateAt Q (normalize u) n = normalize w := by
    cases n with
    | zero =>
      refine ⟨u, ?_, rfl⟩
      intro h; subst h; simp at hu
    | succ n =>
      refine ⟨matVecMul Q (stateAt Q (normalize u) n), ?_, rfl⟩
      intro h
      have hlen : (matVecMul Q (stateAt Q (normalize u) n)).length = 0 := by
        rw [h]; rfl
      rw [length_matVecMul] at hlen
      omega
  obtain ⟨w, hw, hrw⟩ := key
  rw [hrw]
  refine ⟨⟨clipFloor / (w.map clip).sum, ?_, fun x hx => normalize_mem_lower w x hx⟩,
    normalize_sum w hw⟩
  exact div_pos (by norm_num [clipFloor]) (clip_sum_pos w hw)

/-- Witness for C2: with `Q = [[1]]`, `u = [2]`, `n = 1`, the hypotheses hold
and the invariant holds for the state after one step. -/
theorem reachable_state_invariant_witness :
    1 ≤ [(2 : ℝ)].length ∧ [[(1 : ℝ)]].length = [(2 : ℝ)].length ∧
    ((∃ c, 0 < c ∧ ∀ x ∈ stateAt [[(1 : ℝ)]] (normalize [(2 : ℝ)]) 1, c ≤ x) ∧
      (stateAt [[(1 : ℝ)]] (normalize [(2 : ℝ)]) 1).sum = 1) :=
  ⟨by simp, by simp,
    reachable_state_invariant [[(1 : ℝ)]] [(2 : ℝ)] (by simp) (by simp) 1⟩

/-- Claim C3: for every input vector of length at least 1, `normalize`
returns a vector of the same length obtained by clamping every entry to at
least the floor `1e-15` and dividing by the sum of the clamped entries;
every output entry is at least `floor / sum` and the output sums to 1. -/
theorem normalize_contract (v : List ℝ) (hv : 1 ≤ v.length) :
    (normalize v).length = v.length ∧
    normalize v = (v.map clip).map (fun x => x / (v.map clip).sum) ∧
    (∀ x ∈ normalize v, clipFloor / (v.map clip).sum ≤ x) ∧
    (normalize v).sum = 1 := by
  have hv0 : v ≠ [] := by intro h; subst h; simp at hv
  exact ⟨length_normalize v, rfl, fun x hx => normalize_mem_lower v x hx,
    normalize_sum v hv0⟩

/-- Witness for C3: the contract evaluated at the one-entry vector `[2]`. -/
theorem normalize_contract_witness :
    1 ≤ [(2 : ℝ)].length ∧
    ((normalize [(2 : ℝ)]).length = [(2 : ℝ)].length ∧
      normalize [(2 : ℝ)]
        = ([(2 : ℝ)].map clip).map (fun x => x / ([(2 : ℝ)].map clip).sum) ∧
      (∀ x ∈ normalize [(2 : ℝ)], clipFloor / ([(2 : ℝ)].map clip).sum ≤ x) ∧
      (normalize [(2 : ℝ)]).sum = 1) :=
  ⟨by simp, normalize_contract [(2 : ℝ)] (by simp)⟩

/-- Counterexample for C4: exact idempotence fails at `v = [0, 1]`.  The
first normalization produces the entry `1e-15 / (1e-15 + 1)`, which lies
strictly below the clip floor, so the second normalization clips it back up
and yields a different vector. -/
theorem normalize_not_idempotent :
    normalize (normalize [(0 : ℝ), 1]) ≠ normalize [(0 : ℝ), 1] := by
  have hA : (0 : ℝ) ≤ clipFloor := by norm_num [clipFloor]
  have hB : clipFloor ≤ (1 : ℝ) := by norm_num [clipFloor]
  have h01 : normalize [(0 : ℝ), 1]
      = [clipFloor / (clipFloor + 1), 1 / (clipFloor + 1)] := by
    simp [normalize, clip, max_eq_right hA, max_eq_left hB]
  have hC : clipFloor / (clipFloor + 1) ≤ clipFloor := by norm_num [clipFloor]
  have hD : clipFloor ≤ (clipFloor + 1)⁻¹ := by
    rw [← one_div]; norm_num [clipFloor]
  have h2 : normalize [clipFloor / (clipFloor + 1), 1 / (clipFloor + 1)]
      = [clipFloor / (clipFloor + 1 / (clipFloor + 1)),
         (1 / (clipFloor + 1)) / (clipFloor + 1 / (clipFloor + 1))] := by
    simp [normalize, clip, max_eq_right hC, max_eq_left hD]
  rw [h01, h2]
  intro h
  have h1 : clipFloor / (clipFloor + 1 / (clipFloor + 1))
      = clipFloor / (clipFloor + 1) := by
    injection h
  norm_num [clipFloor] at h1

/-- Claim C4 (amended): normalization is idempotent on every vector whose
normalized entries all remain at least the clip floor `1e-15`; the
counterexample forces this restriction, since an entry of `normalize v`
that falls below the floor is re-clipped by the second pass. -/
theorem normalize_idempotent_of_floor_le (v : List ℝ)
    (h : ∀ x ∈ normalize v, clipFloor ≤ x) :
    normalize (normalize v) = normalize v := by
  by_cases hv : v = []
  · subst hv; simp [normalize]
  · have hclip : (normalize v).map clip = normalize v := by
      conv_rhs => rw [show normalize v = (normalize v).map id from (List.map_id _).symm]
      refine List.map_congr_left ?_
      intro x hx
      exact max_eq_left (h x hx)
    have hsum : (normalize v).sum = 1 := normalize_sum v hv
    show ((normalize v).map clip).map
        (fun x => x / ((normalize v).map clip).sum) = normalize v
    rw [hclip, hsum]
    simp

/-- Witness for the amended C4: `normalize [1] = [1]` has all entries at
least the floor, and normalizing twice agrees with normalizing once. -/
theorem normalize_idempotent_witness :
    (∀ x ∈ normalize [(1 : ℝ)], clipFloor ≤ x) ∧
      normalize (normalize [(1 : ℝ)]) = normalize [(1 : ℝ)] := by
  have h : ∀ x ∈ normalize [(1 : ℝ)], clipFloor ≤ x := by
    rw [normalize_one]
    intro x hx
    have hx1 : x = 1 := by simpa using hx
    subst hx1
    norm_num [clipFloor]
  exact ⟨h, normalize_idempotent_of_floor_le [(1 : ℝ)] h⟩

/-- Counterexample for C5: at `steps = 0` the driver does not reach a
terminal outcome — the exhaustion branch evaluates `distances[-1]` on the
empty history, which raises `IndexError` in the source (embedded as
`none`). -/
theorem driver_zero_steps_errors :
    recurrence_simulation [[(1 : ℝ)]] [(1 : ℝ)] 0 1 = none := by
  simp [recurrence_simulation, recLoop]

/-- Claim C5 (amended): for every `dim`, every `epsilon` and every
`steps ≥ 1` (the counterexample forces excluding `steps = 0`, where the
exhaustion branch indexes the empty history and errors), the driver
terminates with an outcome — succeeded or exhausted, never an error — after
at most `steps` transform applications (one history entry per
application). -/
theorem driver_total_within_budget (Q : List (List ℝ)) (s0 : List ℝ)
    (steps : Nat) (eps : ℝ) (hsteps : 1 ≤ steps) :
    ∃ o d hist, recurrence_simulation Q s0 steps eps = some (o, d, hist) ∧
      hist.length ≤ steps := by
  rcases run_cases Q s0 steps eps hsteps with ⟨T, _, hT2, _, _, heq⟩ | ⟨_, heq⟩
  · exact ⟨some T, _, _, heq, by rw [histTo_length]; omega⟩
  · exact ⟨none, _, _, heq, by rw [histTo_length]⟩

/-- Witness for the amended C5: at `Q = [[1]]`, `s0 = [1]`, `steps = 1`,
`eps = 1` the driver returns an outcome within the budget. -/
theorem driver_total_within_budget_witness :
    1 ≤ 1 ∧
    ∃ o d hist, recurrence_simulation [[(1 : ℝ)]] [(1 : ℝ)] 1 1
        = some (o, d, hist) ∧ hist.length ≤ 1 :=
  ⟨le_refl 1, driver_total_within_budget [[(1 : ℝ)]] [(1 : ℝ)] 1 1 (le_refl 1)⟩

/-- Claim C6: with `epsilon = 0` the driver always exhausts: the recorded
distance is a square root, hence never strictly less than zero, so for every
`steps ≥ 1` the returned step index is `None` with the final distance and
the full history. -/
theorem epsilon_zero_exhausts (Q : List (List ℝ)) (s0 : List ℝ) (steps : Nat)
    (hsteps : 1 ≤ steps) :
    recurrence_simulation Q s0 steps 0
      = some (none, distAt Q s0 steps, histTo Q s0 steps) := by
  rw [run_eq_loop]
  simpa using recLoop_exhaust Q s0 0 steps 0 (by omega)
    (fun j _ _ => not_lt.2 (Real.sqrt_nonneg _))

/-- Witness for C6: at `Q = [[1]]`, `s0 = [1]`, `steps = 1` the zero-epsilon
run exhausts. -/
theorem epsilon_zero_exhausts_witness :
    1 ≤ 1 ∧ recurrence_simulation [[(1 : ℝ)]] [(1 : ℝ)] 1 0
      = some (none, distAt [[(1 : ℝ)]] [(1 : ℝ)] 1, histTo [[(1 : ℝ)]] [(1 : ℝ)] 1) :=
  ⟨le_refl 1, epsilon_zero_exhausts [[(1 : ℝ)]] [(1 : ℝ)] 1 (le_refl 1)⟩

/-- Claim C7: whenever the driver returns, the history has one entry per
executed step — its length is the returned step index on success and the
full budget on exhaustion — and it never exceeds the step budget. -/
theorem history_length_matches_steps (Q : List (List ℝ)) (s0 : List ℝ)
    (steps : Nat) (eps : ℝ) (o : Option Nat) (d : ℝ) (hist : List ℝ)
    (hret : recurrence_simulation Q s0 steps eps = some (o, d, hist)) :
    (∀ t, o = some t → hist.length = t) ∧ (o = none → hist.length = steps) ∧
      hist.length ≤ steps := by
  by_cases hsteps : 1 ≤ steps
  · rcases run_cases Q s0 steps eps hsteps with ⟨T, _, hT2, _, _, heq⟩ | ⟨_, heq⟩
    · rw [heq] at hret
      simp only [Option.some.injEq, Prod.mk.injEq] at hret
      obtain ⟨ho, _, hh⟩ := hret
      refine ⟨fun t ht => ?_, fun hn => ?_, ?_⟩
      · rw [← ho] at ht
        have : T = t := by injection ht
        rw [← hh, histTo_length, this]
      · rw [← ho] at hn; simp at hn
      · rw [← hh, histTo_length]; omega
    · rw [heq] at hret
      simp only [Option.some.injEq, Prod.mk.injEq] at hret
      obtain ⟨ho, _, hh⟩ := hret
      refine ⟨fun t ht => ?_, fun _ => ?_, ?_⟩
      · rw [← ho] at ht; simp at ht
      · rw [← hh, histTo_length]
      · rw [← hh, histTo_length]
  · have h0 : steps = 0 := by omega
    subst h0
    rw [run_eq_loop] at hret
    simp [recLoop, histTo] at hret

/-- Witness for C7: the concrete run `Q = [[1]]`, `s0 = [1]`, `steps = 1`,
`eps = 1` returns `(some 1, 0, [0])`, whose history length is the returned
step index and within the budget. -/
theorem history_length_matches_steps_witness :
    recurrence_simulation [[(1 : ℝ)]] [(1 : ℝ)] 1 1 = some (some 1, 0, [0]) ∧
    ((∀ t, (some 1 : Option Nat) = some t → [(0 : ℝ)].length = t) ∧
      ((some 1 : Option Nat) = none → [(0 : ℝ)].length = 1) ∧
      [(0 : ℝ)].length ≤ 1) :=
  ⟨eval_run_success,
    history_length_matches_steps [[(1 : ℝ)]] [(1 : ℝ)] 1 1 (some 1) 0 [0]
      eval_run_success⟩

/-- Counterexample for C8: at the empty input vector the divisor — the sum
of the clipped entries — is `0`, not strictly positive. -/
theorem clip_divisor_empty_not_pos :
    ¬ 0 < ((([] : List ℝ).map clip).sum) := by
  simp

/-- Claim C8 (amended): for every nonempty finite input vector (the
counterexample forces excluding the empty vector, where the divisor is `0`
but no entrywise division is performed), the divisor of `normalize` — the
sum of the clipped entries — is strictly positive and in particular nonzero,
so the division never divides by zero. -/
theorem clip_divisor_pos (v : List ℝ) (hv : v ≠ []) :
    0 < (v.map clip).sum ∧ (v.map clip).sum ≠ 0 :=
  ⟨clip_sum_pos v hv, (clip_sum_pos v hv).ne.symm⟩

/-- Witness for the amended C8: the divisor at `[2]` is positive. -/
theorem clip_divisor_pos_witness :
    [(2 : ℝ)] ≠ [] ∧
      (0 < ([(2 : ℝ)].map clip).sum ∧ ([(2 : ℝ)].map clip).sum ≠ 0) :=
  ⟨by simp, clip_divisor_pos [(2 : ℝ)] (by simp)⟩

/-- Claim C9: the simulation is deterministic — two runs with the same
parameters (the seed being the fixed constant 42) see the identical initial
state and transform matrix and return identical results (step index,
distance and distance history). -/
theorem simulation_deterministic (dim steps : Nat) (eps : ℝ)
    (r1 r2 : Option (Option Nat × ℝ × List ℝ))
    (h1 : r1 = recurrence_simulation_seeded dim steps eps)
    (h2 : r2 = recurrence_simulation_seeded dim steps eps) :
    initial_state 42 dim = initial_state 42 dim ∧
      transform_matrix 42 dim = transform_matrix 42 dim ∧ r1 = r2 :=
  ⟨rfl, rfl, h1.trans h2.symm⟩

/-- Witness for C9: two invocations of the seeded pipeline at
`dim = 1, steps = 1, eps = 1` agree. -/
theorem simulation_deterministic_witness :
    recurrence_simulation_seeded 1 1 1 = recurrence_simulation_seeded 1 1 1 ∧
      (initial_state 42 1 = initial_state 42 1 ∧
        transform_matrix 42 1 = transform_matrix 42 1 ∧
        recurrence_simulation_seeded 1 1 1 = recurrence_simulation_seeded 1 1 1) :=
  ⟨rfl, simulation_deterministic 1 1 1 _ _ rfl rfl⟩

/-- Claim C10: whenever the driver returns (with `steps ≥ 1`), the returned
distance is the last entry of the returned history in both outcomes, and on
success the returned step index `t` satisfies `1 ≤ t ≤ steps` with the
history of length exactly `t`. -/
theorem driver_output_relation (Q : List (List ℝ)) (s0 : List ℝ)
    (steps : Nat) (eps : ℝ) (o : Option Nat) (d : ℝ) (hist : List ℝ)
    (hsteps : 1 ≤ steps)
    (hret : recurrence_simulation Q s0 steps eps = some (o, d, hist)) :
    hist.getLast? = some d ∧
      ∀ t, o = some t → 1 ≤ t ∧ t ≤ steps ∧ hist.length = t := by
  rcases run_cases Q s0 steps eps hsteps with ⟨T, hT1, hT2, _, _, heq⟩ | ⟨_, heq⟩
  · rw [heq] at hret
    simp only [Option.some.injEq, Prod.mk.injEq] at hret
    obtain ⟨ho, hd, hh⟩ := hret
    constructor
    · obtain ⟨m, rfl⟩ : ∃ m, T = m + 1 := ⟨T - 1, by omega⟩
      rw [← hh, ← hd, histTo_getLast]
    · intro t ht
      rw [← ho] at ht
      have : T = t := by injection ht
      subst this
      exact ⟨hT1, hT2, by rw [← hh, histTo_length]⟩
  · rw [heq] at hret
    simp only [Option.some.injEq, Prod.mk.injEq] at hret
    obtain ⟨ho, hd, hh⟩ := hret
    constructor
    · obtain ⟨m, rfl⟩ : ∃ m, steps = m + 1 := ⟨steps - 1, by omega⟩
      rw [← hh, ← hd, histTo_getLast]
    · intro t ht
      rw [← ho] at ht
      simp at ht

/-- Witness for C10: the concrete successful run returns distance `0`, which
is the last history entry, with step index `1` and history length `1`. -/
theorem driver_output_relation_witness :
    (1 ≤ 1 ∧
      recurrence_simulation [[(1 : ℝ)]] [(1 : ℝ)] 1 1 = some (some 1, 0, [0])) ∧
    ([(0 : ℝ)].getLast? = some 0 ∧
      ∀ t, (some 1 : Option Nat) = some t → 1 ≤ t ∧ t ≤ 1 ∧ [(0 : ℝ)].length = t) :=
  ⟨⟨le_refl 1, eval_run_success⟩,
    driver_output_relation [[(1 : ℝ)]] [(1 : ℝ)] 1 1 (some 1) 0 [0] (le_refl 1)
      eval_run_success⟩

end CosmicRecurrence
